import Mathlib

/-!
Shallow embedding of `build_rss.py` from the virgilio-sport-rss repository.

The script scrapes an Italian sports TV guide, extracts event records from
HTML tables and free-text lines, groups them by date, deduplicates, sorts,
and renders an HTML page plus an RSS feed.

Modelling choices:
* All text processing is done on `List Char` through small structural
  functions, mirroring the Python string operations (`strip`, `split`,
  `lower`, regular expressions) character by character, so that every
  definition evaluates by `decide` or `rfl`.
* Python regular expressions used by the script (`TIME_RE`, `LINE_RE`, the
  date pattern) are translated as explicit scanners with the same greedy /
  backtracking behaviour, including word boundaries where the pattern has
  them.
* Python `\w`, `\d`, `str.lower`, `str.isalpha` are Unicode aware; the
  model uses ASCII classifications extended with the Italian accented
  vowels that occur in the scraped text, which agree with Python on every
  string manipulated by the script.
* A `<table>` element is modelled by the cell texts of its rows
  (`get_text(" ", strip=True)` of each cell), split into the rows found
  inside `<thead>`, inside `<tbody>`, and loose rows, since
  `extract_rows_from_table` selects `table.find("tbody") or table`.
* `datetime.date` construction can raise `ValueError`; fallible paths are
  modelled with `Except Unit`.
-/

namespace VirgilioRss

/-- Char membership in a short list, as a Bool. -/
def charIn (c : Char) (l : List Char) : Bool := l.contains c

/-- Word character for Python regex word boundaries (`\b`): ASCII
alphanumerics, underscore, and the Italian accented vowels. -/
def isWordChar (c : Char) : Bool :=
  c.isAlphanum || c = '_' || charIn c ['à', 'è', 'é', 'ì', 'ò', 'ù', 'À', 'È', 'É', 'Ì', 'Ò', 'Ù']

/-- Boundary check before a match position: start of string or a non-word
character (the matched token always starts with a digit, a word char). -/
def boundaryOk (prev : Option Char) : Bool :=
  match prev with
  | none => true
  | some c => !isWordChar c

/-- Boundary check after a match: end of string or a non-word character. -/
def boundaryAfter (rest : List Char) : Bool :=
  match rest with
  | [] => true
  | c :: _ => !isWordChar c

/-- One-digit-hour alternative of `\d{1,2}:\d{2}`, tried after the
two-digit attempt fails (regex backtracking). `bchk` demands a trailing
word boundary (present in `TIME_RE`, absent in `LINE_RE`). -/
def matchTime1 (bchk : Bool) : List Char → Option (List Char × List Char)
  | a :: c :: d :: e :: rest =>
    if a.isDigit && (c == ':') && d.isDigit && e.isDigit && (!bchk || boundaryAfter rest) then
      some ([a, c, d, e], rest)
    else none
  | _ => none

/-- Match `\d{1,2}:\d{2}` at the start of `cs`, greedy on the hour digits
with backtracking, as in `TIME_RE = \b(\d{1,2}:\d{2})\b` and the leading
group of `LINE_RE`. Returns the captured token and the remainder. -/
def matchTimeAt (bchk : Bool) (cs : List Char) : Option (List Char × List Char) :=
  match cs with
  | a :: b :: c :: d :: e :: rest =>
    if a.isDigit && b.isDigit && (c == ':') && d.isDigit && e.isDigit
        && (!bchk || boundaryAfter rest) then
      some ([a, b, c, d, e], rest)
    else matchTime1 bchk cs
  | _ => matchTime1 bchk cs

/-- Scan of `TIME_RE.search`: try each position left to right, requiring a
word boundary before the match. Returns the captured group. -/
def timeSearchAux : Option Char → List Char → Option (List Char)
  | _, [] => none
  | prev, c :: rest =>
    match (if boundaryOk prev then matchTimeAt true (c :: rest) else none) with
    | some (tok, _) => some tok
    | none => timeSearchAux (some c) rest

/-- Model of `TIME_RE.search(s)` returning the captured `HH:MM` group. -/
def findTimeMatch (s : String) : Option String :=
  (timeSearchAux none s.data).map (fun l => ⟨l⟩)

/-- Model of `TIME_RE.fullmatch(s)`: the whole string is one to two digits,
a colon, and two digits (the word boundaries are vacuous at the ends). -/
def timeToken (s : String) : Bool :=
  match s.data with
  | [a, b, c, d, e] => a.isDigit && b.isDigit && (c == ':') && d.isDigit && e.isDigit
  | [a, c, d, e] => a.isDigit && (c == ':') && d.isDigit && e.isDigit
  | _ => false

/-- Python `str.strip()` on a char list. -/
def trimL (l : List Char) : List Char :=
  ((l.dropWhile Char.isWhitespace).reverse.dropWhile Char.isWhitespace).reverse

/-- Python `str.strip()`. -/
def pyTrim (s : String) : String := ⟨trimL s.data⟩

/-- Python `str.lower()` (ASCII case mapping; the strings compared by the
script are ASCII except for accented month names already in lower case). -/
def pyLower (s : String) : String := ⟨s.data.map Char.toLower⟩

/-- Replace every run of whitespace by a single space, as
`re.sub(r"\s+", " ", s)`. -/
def collapseWsAux (prevWs : Bool) : List Char → List Char
  | [] => []
  | c :: cs =>
    if c.isWhitespace then
      (if prevWs then collapseWsAux true cs else ' ' :: collapseWsAux true cs)
    else c :: collapseWsAux false cs

/-- Model of `re.sub(r"\s+", " ", s)`. -/
def collapseWs (s : String) : String := ⟨collapseWsAux false s.data⟩

/-- Split at the first occurrence of `sep`, as Python `s.split(sep, 1)`
when the separator occurs; `none` when it does not. -/
def splitFirstAux (sep : Char) : List Char → Option (List Char × List Char)
  | [] => none
  | c :: cs =>
    if c = sep then some ([], cs)
    else (splitFirstAux sep cs).map (fun p => (c :: p.1, p.2))

/-- Split a string at the first occurrence of `sep`. -/
def splitFirst (sep : Char) (s : String) : Option (String × String) :=
  (splitFirstAux sep s.data).map (fun p => (⟨p.1⟩, ⟨p.2⟩))

/-- Python `s.split(sep)`: split at every occurrence, keeping empties. -/
def splitAllAux (sep : Char) : List Char → List (List Char)
  | [] => [[]]
  | c :: rest =>
    match splitAllAux sep rest with
    | [] => [[]]
    | h :: t => if c = sep then [] :: h :: t else (c :: h) :: t

/-- Python `s.split(sep)` on strings. -/
def pySplitAll (sep : Char) (s : String) : List String :=
  (splitAllAux sep s.data).map (fun l => ⟨l⟩)

/-- Python `s.split()` with no argument: split on whitespace runs,
dropping empty pieces. -/
def pySplitWsAux (acc : List Char) : List Char → List (List Char)
  | [] => if acc = [] then [] else [acc.reverse]
  | c :: cs =>
    if c.isWhitespace then
      (if acc = [] then pySplitWsAux [] cs else acc.reverse :: pySplitWsAux [] cs)
    else pySplitWsAux (c :: acc) cs

/-- Python `s.split()` on strings. -/
def pySplitWs (s : String) : List String :=
  (pySplitWsAux [] s.data).map (fun l => ⟨l⟩)

/-- Does `hay` start with `needle`? -/
def leadsWith : List Char → List Char → Bool
  | [], _ => true
  | _ :: _, [] => false
  | a :: as, b :: bs => a == b && leadsWith as bs

/-- Does `needle` occur contiguously inside `hay`? (Python `sub in s`.) -/
def hasSeq (needle : List Char) : List Char → Bool
  | [] => leadsWith needle []
  | c :: rest => leadsWith needle (c :: rest) || hasSeq needle rest

/-- Python `sub in hay` on strings. -/
def containsSub (hay sub : String) : Bool := hasSeq sub.data hay.data

/-- Join a list of strings with a separator, as Python `sep.join(parts)`. -/
def joinSep (sep : String) : List String → String
  | [] => ""
  | [x] => x
  | x :: y :: xs => x ++ sep ++ joinSep sep (y :: xs)

/-- HTML escaping of one character, as in `esc`. -/
def escChar (c : Char) : List Char :=
  if c = '&' then "&amp;".data
  else if c = '<' then "&lt;".data
  else if c = '>' then "&gt;".data
  else [c]

/-- Model of `esc`: escape `&`, `<`, `>` (the replacements are applied in
this order in the source; on a per-character basis they coincide). -/
def esc (s : String) : String := ⟨s.data.foldr (fun c acc => escChar c ++ acc) []⟩

/-- The fixed broadcaster keyword tuple `BROADCASTER_KWS`. -/
def BROADCASTER_KWS : List String :=
  ["Sky", "Dazn", "DAZN", "Rai", "Eurosport", "NOW", "Mediaset",
   "Sportitalia", "Amazon", "Prime", "Infinity", "La7", "Nove"]

/-- Case-insensitive keyword containment `k.lower() in text.lower()`. -/
def kwInText (text kw : String) : Bool := containsSub (pyLower text) (pyLower kw)

/-- Model of `_looks_like_channels`. -/
def looksLikeChannels (text : String) : Bool :=
  (text != "") && BROADCASTER_KWS.any (fun k => kwInText text k)

/-- One extracted event, the record shape built by both extractors. -/
structure EventRec where
  time : String
  sport : String
  competition : String
  title : String
  channels : String
deriving DecidableEq, Repr

/-- The non-breaking space replaced by `parse_sport_comp_event`. -/
def nbspChar : Char := Char.ofNat 160

/-- Model of `parse_sport_comp_event`: normalize whitespace, split on the
first colon into left and title, split left on the first comma into sport
and competition. -/
def parse_sport_comp_event (block : String) : String × String × String :=
  let s := collapseWs (pyTrim ⟨block.data.map (fun c => if c = nbspChar then ' ' else c)⟩)
  let lt : String × String :=
    match splitFirst ':' s with
    | some (l, r) => (l, pyTrim r)
    | none => (s, "")
  match splitFirst ',' lt.1 with
  | some (a, b) => (pyTrim a, pyTrim b, lt.2)
  | none => (pyTrim lt.1, "", lt.2)

/-- A table, given by the cell texts of its rows: rows inside `<thead>`,
rows inside `<tbody>` (when a `<tbody>` element exists), and remaining
loose rows. -/
structure HtmlTable where
  thead : List (List String)
  tbody : Option (List (List String))
  looseRows : List (List String)
deriving DecidableEq, Repr

/-- The rows scanned by `extract_rows_from_table`:
`body = table.find("tbody") or table`, then `body.find_all("tr")`. -/
def effectiveRows (t : HtmlTable) : List (List String) :=
  match t.tbody with
  | some b => b
  | none => t.thead ++ t.looseRows

/-- First cell index whose text contains a `TIME_RE` match, with the
captured group. -/
def findTimeCell : Nat → List String → Option (Nat × String)
  | _, [] => none
  | i, c :: cs =>
    match findTimeMatch c with
    | some tv => some (i, tv)
    | none => findTimeCell (i + 1) cs

/-- Scan for the channels column from index `i` downward, skipping the
time index, as the `range(len(texts)-1, -1, -1)` loop. -/
def chanScan (texts : List String) (ti : Nat) : Nat → Option Nat
  | 0 => if ti = 0 then none else (if looksLikeChannels (texts.getD 0 "") then some 0 else none)
  | i + 1 =>
    if ti = i + 1 then chanScan texts ti i
    else if looksLikeChannels (texts.getD (i + 1) "") then some (i + 1)
    else chanScan texts ti i

/-- Per-row body of `extract_rows_from_table`: find the time cell, pick
the channels cell (rightmost channels-looking cell, else the last cell),
join the remaining non-empty cells and parse them. `none` models the
`continue` branches. -/
def rowToRec (texts : List String) : Option EventRec :=
  if texts = [] then none
  else if texts.all (fun t => t == "") then none
  else
    match findTimeCell 0 texts with
    | none => none
    | some (ti, tv) =>
      let ci :=
        match chanScan texts ti (texts.length - 1) with
        | some j => j
        | none => if texts.length > 1 then texts.length - 1 else 0
      let channels := pyTrim (texts.getD ci "")
      let middleCells :=
        ((texts.enum).filter (fun p => (p.1 != ti) && (p.1 != ci) && (p.2 != ""))).map Prod.snd
      let middle := pyTrim (joinSep " " middleCells)
      let sce := parse_sport_comp_event middle
      some ⟨tv, sce.1, sce.2.1, sce.2.2, channels⟩

/-- Model of `extract_rows_from_table`. -/
def extract_rows_from_table (t : HtmlTable) : List EventRec :=
  (effectiveRows t).filterMap rowToRec

/-- Model of `LINE_RE.match`: optional leading whitespace, a `HH:MM`
token, at least one whitespace, then a lazily captured body with trailing
whitespace stripped. The body is a single space when the remainder is all
whitespace of length at least two (regex backtracking leaves one space to
the lazy group). -/
def lineMatch (cs : List Char) : Option (String × String) :=
  match matchTimeAt false (cs.dropWhile Char.isWhitespace) with
  | none => none
  | some (tok, rest1) =>
    match rest1 with
    | [] => none
    | c :: _ =>
      if !c.isWhitespace then none
      else
        let t := trimL rest1
        if t ≠ [] then some (⟨tok⟩, ⟨t⟩)
        else if rest1.length ≥ 2 then some (⟨tok⟩, " ") else none

/-- Does a comma-part contain a broadcaster keyword? -/
def hasKwPart (p : String) : Bool := BROADCASTER_KWS.any (fun k => kwInText p k)

/-- Index of the last comma-part containing a broadcaster keyword: the
`while idx >= 0 and not ...: idx -= 1` scan from the end. -/
def lastKwIdx (parts : List String) : Option Nat :=
  (((parts.enum).filter (fun p => hasKwPart p.2)).getLast?).map Prod.fst

/-- Model of `split_free_text`. -/
def split_free_text (line : String) : Option EventRec :=
  match lineMatch line.data with
  | none => none
  | some (tv, rest) =>
    match splitFirst ':' rest with
    | none => some ⟨tv, "", "", rest, ""⟩
    | some (l0, r0) =>
      let left := pyTrim l0
      let right := pyTrim r0
      let sc : String × String :=
        match splitFirst ',' left with
        | some (a, b) => (pyTrim a, pyTrim b)
        | none => (left, "")
      let parts := (pySplitAll ',' right).map pyTrim
      let tc : String × String :=
        match lastKwIdx parts with
        | some idx => (pyTrim (joinSep ", " (parts.take idx)), pyTrim (joinSep ", " (parts.drop idx)))
        | none => (right, "")
      let tc2 : String × String :=
        if tc.2 = "" then
          match (pySplitWs right).getLast? with
          | some tk =>
            if (tk != "") && tk.data.all Char.isAlpha && (tk.data.headD ' ').isUpper then
              (pyTrim (joinSep " " (pySplitWs right).dropLast), tk)
            else tc
          | none => tc
        else tc
      some ⟨tv, sc.1, sc.2, tc2.1, tc2.2⟩

/-- Model of `_lookup_channel_url`: the channel map is an association
list (Python dict in insertion order, keys already lower-cased by the
loader). Exact lookup on the lowered, stripped display name first, then
the first entry matching in either substring direction. -/
def lookupChannelUrl (displayName : String) (cmap : List (String × String)) : Option String :=
  let key := pyLower (pyTrim displayName)
  if key = "" then none
  else
    match cmap.find? (fun p => p.1 == key) with
    | some p => some p.2
    | none => (cmap.find? (fun p => containsSub p.1 key || containsSub key p.1)).map Prod.snd

/-- Model of `linkify_channels`: split on commas, strip, drop empties,
render each part as an anchor when the lookup succeeds and as escaped
plain text otherwise, join with a comma and space. -/
def linkify_channels (chStr : String) (cmap : List (String × String)) : String :=
  if chStr = "" then ""
  else
    let parts := ((pySplitAll ',' chStr).map pyTrim).filter (fun p => p != "")
    joinSep ", " (parts.map (fun p =>
      match lookupChannelUrl p cmap with
      | some url =>
        "<a href=\"" ++ esc url ++ "\" target=\"_blank\" rel=\"noopener noreferrer\">"
          ++ esc p ++ "</a>"
      | none => esc p))

/-- Text content of the channels cell produced by `linkify_channels` when
the channel map is empty (no `channels.csv` / `channels.json`): every part
is plain escaped text and re-parsing with `get_text` undoes `esc`. -/
def linkChannelsTextNoMap (chStr : String) : String :=
  if chStr = "" then ""
  else joinSep ", " (((pySplitAll ',' chStr).map pyTrim).filter (fun p => p != ""))

/-- Header row written by `render_table_html_for_rss`. -/
def RSS_HEADER_ROW : List String := ["Ora", "Sport", "Competizione", "Evento", "Canali"]

/-- Cell texts of the `<tbody>` rows written by
`render_table_html_for_rss` with an empty channel map, as recovered by
`get_text(" ", strip=True)` after parsing: rows whose stripped time fails
`TIME_RE.fullmatch` are skipped; each remaining row renders its fields
escaped, so re-extraction sees the stripped field texts. -/
def renderedBodyTexts (rows : List EventRec) : List (List String) :=
  (rows.filter (fun r => timeToken (pyTrim r.time))).map (fun r =>
    [pyTrim r.time, pyTrim r.sport, pyTrim r.competition, pyTrim r.title,
     pyTrim (linkChannelsTextNoMap r.channels)])

/-- Rendering a day section to the feed-embedded table and re-extracting
through `extract_rows_from_table` (the rendered table has an explicit
`<thead>` and `<tbody>`). -/
def renderThenExtract (rows : List EventRec) : List EventRec :=
  extract_rows_from_table ⟨[RSS_HEADER_ROW], some (renderedBodyTexts rows), []⟩

/-- A calendar date as carried by `datetime.date`. -/
structure Date where
  year : Nat
  month : Nat
  day : Nat
deriving DecidableEq, Repr

/-- Gregorian leap year, as implemented by `datetime`. -/
def isLeap (y : Nat) : Bool := (y % 4 == 0) && ((y % 100 != 0) || (y % 400 == 0))

/-- Days in a month. -/
def daysInMonth (y m : Nat) : Nat :=
  if m = 2 then (if isLeap y then 29 else 28)
  else if m = 4 ∨ m = 6 ∨ m = 9 ∨ m = 11 then 30 else 31

/-- Model of the `datetime.date` constructor: `none` models the
`ValueError` raised for out-of-range components. -/
def mkDate (y m d : Nat) : Option Date :=
  if 1 ≤ m ∧ m ≤ 12 ∧ 1 ≤ d ∧ d ≤ daysInMonth y m ∧ 1 ≤ y ∧ y ≤ 9999 then
    some ⟨y, m, d⟩
  else none

/-- Model of `date + timedelta(days=1)`. -/
def nextDay (dt : Date) : Date :=
  if dt.day < daysInMonth dt.year dt.month then ⟨dt.year, dt.month, dt.day + 1⟩
  else if dt.month < 12 then ⟨dt.year, dt.month + 1, 1⟩
  else ⟨dt.year + 1, 1, 1⟩

/-- The fixed Italian month-name table `IT_MONTHS`. -/
def IT_MONTHS : List (String × Nat) :=
  [("gennaio", 1), ("febbraio", 2), ("marzo", 3), ("aprile", 4), ("maggio", 5),
   ("giugno", 6), ("luglio", 7), ("agosto", 8), ("settembre", 9), ("ottobre", 10),
   ("novembre", 11), ("dicembre", 12)]

/-- Letter class of the date pattern: `[A-Za-zàéìòù]` with `IGNORECASE`. -/
def isMonthLetter (c : Char) : Bool :=
  c.isAlpha || charIn c ['à', 'é', 'ì', 'ò', 'ù', 'À', 'É', 'Ì', 'Ò', 'Ù']

/-- Decimal digits to a number. -/
def digitsToNat (l : List Char) : Nat := l.foldl (fun n c => n * 10 + (c.toNat - 48)) 0

/-- After the day digits: match `\s+ [month letters]+ \s+ \d{4}`,
returning the month-name letters and the year. -/
def matchDateTail (cs : List Char) : Option (List Char × Nat) :=
  match cs with
  | [] => none
  | c :: rest =>
    if !c.isWhitespace then none
    else
      let afterWs := rest.dropWhile Char.isWhitespace
      let mon := afterWs.takeWhile isMonthLetter
      if mon = [] then none
      else
        match afterWs.dropWhile isMonthLetter with
        | [] => none
        | c2 :: rest3 =>
          if !c2.isWhitespace then none
          else
            match rest3.dropWhile Char.isWhitespace with
            | y1 :: y2 :: y3 :: y4 :: _ =>
              if y1.isDigit && y2.isDigit && y3.isDigit && y4.isDigit then
                some (mon, digitsToNat [y1, y2, y3, y4])
              else none
            | _ => none

/-- Match the date pattern at one position: one or two day digits (greedy
with backtracking), then `matchDateTail`. -/
def matchDateAt (cs : List Char) : Option (Nat × List Char × Nat) :=
  match cs with
  | a :: b :: rest =>
    if !a.isDigit then none
    else if b.isDigit then
      match matchDateTail rest with
      | some p => some (digitsToNat [a, b], p.1, p.2)
      | none => (matchDateTail (b :: rest)).map (fun p => (digitsToNat [a], p.1, p.2))
    else (matchDateTail (b :: rest)).map (fun p => (digitsToNat [a], p.1, p.2))
  | _ => none

/-- Scan of `re.search` for the date pattern (no word boundaries in the
pattern, so every position is tried). -/
def dateSearch : List Char → Option (Nat × List Char × Nat)
  | [] => none
  | c :: rest =>
    match matchDateAt (c :: rest) with
    | some r => some r
    | none => dateSearch rest

/-- Scan for a whole word (`\b w \b`) in an already lower-cased text. -/
def wordScan (w : List Char) : Option Char → List Char → Bool
  | _, [] => false
  | prev, c :: rest =>
    (boundaryOk prev && leadsWith w (c :: rest) && boundaryAfter ((c :: rest).drop w.length))
      || wordScan w (some c) rest

/-- Case-insensitive whole-word search, as `re.search(r"\bOggi\b", text,
re.IGNORECASE)`. -/
def hasWordCI (s w : String) : Bool := wordScan (pyLower w).data none (pyLower s).data

/-- The `Oggi` / `Domani` fallbacks of `parse_date_heading`. -/
def oggiDomani (t : String) (today : Date) : Except Unit (Option Date) :=
  if hasWordCI t "oggi" then .ok (some today)
  else if hasWordCI t "domani" then .ok (some (nextDay today))
  else .ok none

/-- Model of `parse_date_heading`: collapse whitespace, search the
`<day> <Italian month> <year>` pattern, map the month name through
`IT_MONTHS` (falling through when unknown), build the date — where the
unguarded `datetime.date(y, month, d)` call raises `ValueError` for an
invalid day, modelled as `.error ()` — else check `Oggi` / `Domani`. -/
def parse_date_heading (text : String) (today : Date) : Except Unit (Option Date) :=
  let t := pyTrim (collapseWs text)
  match dateSearch t.data with
  | some (d, mon, y) =>
    match (IT_MONTHS.find? (fun p => p.1 == pyLower ⟨mon⟩)).map Prod.snd with
    | some m =>
      match mkDate y m d with
      | some dt => .ok (some dt)
      | none => .error ()
    | none => oggiDomani t today
  | none => oggiDomani t today

/-- Deduplication key `(time, title, channels)`. -/
def recKey (r : EventRec) : String × String × String := (r.time, r.title, r.channels)

/-- The `seen` set loop of the dedupe step, with the set of seen keys
modelled as a list. -/
def dedupeAux (seen : List (String × String × String)) : List EventRec → List EventRec
  | [] => []
  | r :: rs =>
    if recKey r ∈ seen then dedupeAux seen rs
    else r :: dedupeAux (recKey r :: seen) rs

/-- Model of the dedupe step in `iter_rows_grouped_by_date_from_mirror`
and its fallback. -/
def dedupeRows (rows : List EventRec) : List EventRec := dedupeAux [] rows

/-- String comparison used by `lst.sort(key=lambda r: r["time"])`:
Python compares strings lexicographically by code point, as does the
`String` linear order. -/
def timeLeB (a b : EventRec) : Bool := decide (a.time ≤ b.time)

/-- Insert into a sorted list, before the first element not below `a`;
together with `insSort` this is the unique stable ascending sort, which
is the observable behaviour of Python `list.sort`. -/
def orderedInsert (le : α → α → Bool) (a : α) : List α → List α
  | [] => [a]
  | b :: bs => if le a b then a :: b :: bs else b :: orderedInsert le a bs

/-- Stable ascending sort, modelling Python `list.sort` with a key. -/
def insSort (le : α → α → Bool) : List α → List α
  | [] => []
  | a :: as => orderedInsert le a (insSort le as)

/-- Lexicographic comparison of dates, as `datetime.date` ordering. -/
def dateLeB (a b : Date) : Bool :=
  decide (a.year < b.year)
    || ((a.year == b.year)
        && (decide (a.month < b.month) || ((a.month == b.month) && decide (a.day ≤ b.day))))

/-- Strict date comparison. -/
def dateLtB (a b : Date) : Bool := dateLeB a b && !dateLeB b a

/-- Insert-or-update on the date-keyed groups dict, preserving insertion
order: `f old new` computes the stored record list. -/
def upsertWith (f : List EventRec → List EventRec → List EventRec)
    (g : List (Date × List EventRec)) (b : Date × List EventRec) :
    List (Date × List EventRec) :=
  if b.1 ∈ g.map Prod.fst then
    g.map (fun p => if p.1 = b.1 then (p.1, f p.2 b.2) else p)
  else g ++ [(b.1, f [] b.2)]

/-- Accumulation of one date block in
`iter_rows_grouped_by_date_from_mirror`: `rows = groups.setdefault(d, [])`,
extend, dedupe, store. -/
def addBlock (g : List (Date × List EventRec)) (b : Date × List EventRec) :
    List (Date × List EventRec) :=
  upsertWith (fun old new => dedupeRows (old ++ new)) g b

/-- Accumulation of one date block in the full-page fallback:
`groups[d] = uniq` overwrites, after dedupe and per-block time sort. -/
def setBlock (g : List (Date × List EventRec)) (b : Date × List EventRec) :
    List (Date × List EventRec) :=
  upsertWith (fun _ new => insSort timeLeB (dedupeRows new)) g b

/-- Final `for d in sorted(groups.keys())` iteration: sort the groups by
date (Python sort is stable and ascending; `insSort` is the unique
stable ascending sort, hence the same function). -/
def sortByDate (g : List (Date × List EventRec)) : List (Date × List EventRec) :=
  insSort (fun p q => dateLeB p.1 q.1) g

/-- Model of the aggregation performed by
`iter_rows_grouped_by_date_from_mirror` on the per-section record blocks:
merge blocks into the date dict with dedupe, sort each date's records by
time string, yield dates ascending. -/
def aggregateBlocks (blocks : List (Date × List EventRec)) : List (Date × List EventRec) :=
  (sortByDate (blocks.foldl addBlock [])).map (fun p => (p.1, insSort timeLeB p.2))

/-- Model of the aggregation performed by
`iter_rows_grouped_fallback_fullpage` on its day blocks. -/
def aggregateOverwrite (blocks : List (Date × List EventRec)) : List (Date × List EventRec) :=
  sortByDate (blocks.foldl setBlock [])

/-- Abstraction of the scraped document: a flat sequence of `h2`/`h3`
headings and content blocks, each block carrying its tables and its
free-text lines. The sibling walks of `build_clean_mirror` and of the
fallback attach every block to the preceding heading and stop at any
heading. -/
inductive DocItem where
  | heading (text : String)
  | block (tables : List HtmlTable) (lines : List String)

/-- Is this item a content block? -/
def isBlockItem : DocItem → Bool
  | .heading _ => false
  | .block _ _ => true

/-- Content of a block item. -/
def blockData : DocItem → Option (List HtmlTable × List String)
  | .heading _ => none
  | .block ts ls => some (ts, ls)

/-- The blocks of one section: items up to the next heading. -/
def sectionBlocks (items : List DocItem) : List (List HtmlTable × List String) :=
  (items.takeWhile isBlockItem).filterMap blockData

/-- Concatenation of a list of lists. -/
def concatAll : List (List α) → List α
  | [] => []
  | l :: ls => l ++ concatAll ls

/-- Line filter of both row loops: `ln = ln.strip()`, skip lines without
a `TIME_RE` hit, parse the rest with `split_free_text` (a `None` result
is skipped). Lines belonging to blocks without any time text are filtered
out by this same test, so the `block_has_events_text` gate is absorbed. -/
def freeLines (lines : List String) : List EventRec :=
  ((lines.map pyTrim).filter (fun ln => (findTimeMatch ln).isSome)).filterMap split_free_text

/-- Record rows of one mirror section: `section.find_all("table")` first
(all tables, in document order), then the free-text lines. -/
def mirrorSectionRows (blocks : List (List HtmlTable × List String)) : List EventRec :=
  concatAll ((concatAll (blocks.map Prod.fst)).map extract_rows_from_table)
    ++ freeLines (concatAll (blocks.map Prod.snd))

/-- Record rows of one fallback day block: tables and lines are processed
per block node, interleaved in document order. -/
def fallbackSectionRows (blocks : List (List HtmlTable × List String)) : List EventRec :=
  concatAll (blocks.map (fun b =>
    concatAll (b.1.map extract_rows_from_table) ++ freeLines b.2))

/-- The recognized date sections of the document, in order: headings are
resolved through `parse_date_heading`; a raised `ValueError` aborts the
run (`.error`), an unrecognized heading is skipped with its block left to
no section. -/
def sectionsE (today : Date) :
    List DocItem → Except Unit (List (Date × List (List HtmlTable × List String)))
  | [] => .ok []
  | .block _ _ :: rest => sectionsE today rest
  | .heading h :: rest =>
    match parse_date_heading h today with
    | .error e => .error e
    | .ok none => sectionsE today rest
    | .ok (some d) => (sectionsE today rest).map (fun tail => (d, sectionBlocks rest) :: tail)

/-- All tables of the document, for the last-resort branch of the
fallback. -/
def allTables (doc : List DocItem) : List HtmlTable :=
  concatAll (doc.map (fun it =>
    match it with
    | .heading _ => []
    | .block ts _ => ts))

/-- All free-text lines of the document, for the last-resort branch. -/
def allLines (doc : List DocItem) : List String :=
  concatAll (doc.map (fun it =>
    match it with
    | .heading _ => []
    | .block _ ls => ls))

/-- Rows of the last-resort branch (no recognized heading at all): all
tables of the page, then all qualifying lines. -/
def lastResortRows (doc : List DocItem) : List EventRec :=
  concatAll ((allTables doc).map extract_rows_from_table) ++ freeLines (allLines doc)

/-- Model of `build_clean_mirror` followed by
`iter_rows_grouped_by_date_from_mirror`. -/
def mirrorGroupsE (doc : List DocItem) (today : Date) :
    Except Unit (List (Date × List EventRec)) :=
  (sectionsE today doc).map (fun secs =>
    aggregateBlocks (secs.map (fun s => (s.1, mirrorSectionRows s.2))))

/-- Model of `iter_rows_grouped_fallback_fullpage`. -/
def fallbackGroupsE (doc : List DocItem) (today : Date) :
    Except Unit (List (Date × List EventRec)) :=
  (sectionsE today doc).map (fun secs =>
    if secs.isEmpty then [(today, insSort timeLeB (dedupeRows (lastResortRows doc)))]
    else aggregateOverwrite (secs.map (fun s => (s.1, fallbackSectionRows s.2))))

/-- Model of the grouping logic of `main`: use the mirror groups unless
they are empty or all of their record lists are empty, in which case the
full-page fallback replaces them. -/
def mainGroupedE (doc : List DocItem) (today : Date) :
    Except Unit (List (Date × List EventRec)) :=
  match mirrorGroupsE doc today with
  | .error e => .error e
  | .ok g =>
    if g.isEmpty || g.all (fun p => p.2.isEmpty) then fallbackGroupsE doc today
    else .ok g

/-- Modelled from the spec: normalization of one header cell in the
header-driven strategy of section 4.2 — lower-case, trim, and the synonym
table sending dove vederla / dove vedere / canale to canali and ora
inizio to ora. This strategy does not exist in `extract_rows_from_table`,
which ignores headers; the definition only serves to state claim C1. -/
def headerNormalize (h : String) : String :=
  let s := pyTrim (pyLower h)
  if s = "dove vederla" ∨ s = "dove vedere" ∨ s = "canale" then "canali"
  else if s = "ora inizio" then "ora"
  else s

/-- Modelled from the spec: the column index bound to a canonical role —
the first header whose normalized text equals or contains the role
token. -/
def headerRoleIdx (hdr : List String) (role : String) : Option Nat :=
  ((hdr.enum).find? (fun p =>
    let n := headerNormalize p.2
    n == role || containsSub n role)).map Prod.fst

/-- Modelled from the spec: the header-driven table strategy of section
4.2 — resolve the five roles from the header row (a `<thead>` row if
present, else the table's first row), read body rows at the resolved
indices with the positional defaults 1/2/3 and last column, drop rows
whose time cell has no time pattern, and apply the canali/evento sanity
swap. -/
def headerDrivenExtract (t : HtmlTable) : List EventRec :=
  let hdr :=
    match t.thead.head? with
    | some h => h
    | none => (effectiveRows t).headD []
  let iOra := (headerRoleIdx hdr "ora").getD 0
  let iSport := (headerRoleIdx hdr "sport").getD 1
  let iComp := (headerRoleIdx hdr "competizione").getD 2
  let iEvento := (headerRoleIdx hdr "evento").getD 3
  let iCanali := (headerRoleIdx hdr "canali").getD (hdr.length - 1)
  let body :=
    match t.tbody with
    | some b => b
    | none => if t.thead.isEmpty then t.looseRows.drop 1 else t.looseRows
  body.filterMap (fun row =>
    let timeCell := row.getD iOra ""
    if (findTimeMatch timeCell).isSome then
      let ev0 := row.getD iEvento ""
      let ch0 := row.getD iCanali ""
      let evch := if (findTimeMatch ch0).isSome then (ch0, ev0) else (ev0, ch0)
      some ⟨timeCell, row.getD iSport "", row.getD iComp "", evch.1, evch.2⟩
    else none)

/-- Modelled from the claim: a strict two-digit zero-padded hour and
two-digit minute pattern, the reading of HH:MM asserted by claim C9. -/
def strictHHMM2 (s : String) : Bool :=
  match s.data with
  | [a, b, c, d, e] => a.isDigit && b.isDigit && (c == ':') && d.isDigit && e.isDigit
  | _ => false

/-! ### Helper lemmas about the time scanners -/

/-- A token produced by `matchTime1` has the one-digit-hour time shape. -/
theorem matchTime1_token {bchk : Bool} {cs tok rest : List Char}
    (h : matchTime1 bchk cs = some (tok, rest)) : timeToken ⟨tok⟩ = true := by
  unfold matchTime1 at h
  split at h
  · split at h
    · rename_i hc
      injection h with h1
      injection h1 with htok hrest
      subst htok
      simp only [Bool.and_eq_true] at hc
      simp [timeToken, hc.1.1.1.1, hc.1.1.1.2, hc.1.1.2, hc.1.2]
    · exact absurd h (by simp)
  · exact absurd h (by simp)

/-- A token produced by `matchTimeAt` has the time shape. -/
theorem matchTimeAt_token {bchk : Bool} {cs tok rest : List Char}
    (h : matchTimeAt bchk cs = some (tok, rest)) : timeToken ⟨tok⟩ = true := by
  unfold matchTimeAt at h
  split at h
  · split at h
    · rename_i hc
      injection h with h1
      injection h1 with htok hrest
      subst htok
      simp only [Bool.and_eq_true] at hc
      simp [timeToken, hc.1.1.1.1.1, hc.1.1.1.1.2, hc.1.1.1.2, hc.1.1.2, hc.1.2]
    · exact matchTime1_token h
  · exact matchTime1_token h

/-- Tokens found by the `TIME_RE` search have the time shape. -/
theorem timeSearchAux_token {cs : List Char} :
    ∀ {prev : Option Char} {tok : List Char},
      timeSearchAux prev cs = some tok → timeToken ⟨tok⟩ = true := by
  induction cs with
  | nil => intro prev tok h; simp [timeSearchAux] at h
  | cons c rest ih =>
    intro prev tok h
    unfold timeSearchAux at h
    split at h
    · rename_i tok2 rest2 heq
      injection h with h1
      subst h1
      split at heq
      · exact matchTimeAt_token heq
      · exact absurd heq (by simp)
    · exact ih h

/-- The captured group of `TIME_RE.search` has the time shape. -/
theorem findTimeMatch_token {s tv : String} (h : findTimeMatch s = some tv) :
    timeToken tv = true := by
  unfold findTimeMatch at h
  cases hs : timeSearchAux none s.data with
  | none => rw [hs] at h; simp at h
  | some tok =>
    rw [hs] at h
    have h2 : ({ data := tok } : String) = tv := by simpa using h
    subst h2
    exact timeSearchAux_token hs

/-- The time value found by `findTimeCell` has the time shape. -/
theorem findTimeCell_token {texts : List String} :
    ∀ {i j : Nat} {tv : String},
      findTimeCell i texts = some (j, tv) → timeToken tv = true := by
  induction texts with
  | nil => intro i j tv h; simp [findTimeCell] at h
  | cons c rest ih =>
    intro i j tv h
    unfold findTimeCell at h
    split at h
    · rename_i tv2 heq
      injection h with h1
      injection h1 with hj htv
      subst htv
      exact findTimeMatch_token heq
    · exact ih h

/-- Every record built by `rowToRec` has a time of the `TIME_RE` shape. -/
theorem rowToRec_token {texts : List String} {r : EventRec}
    (h : rowToRec texts = some r) : timeToken r.time = true := by
  unfold rowToRec at h
  split at h
  · exact absurd h (by simp)
  · split at h
    · exact absurd h (by simp)
    · split at h
      · exact absurd h (by simp)
      · rename_i ti tv heq
        simp only [Option.some.injEq] at h
        subst h
        exact findTimeCell_token heq

/-- A row without any `TIME_RE` hit in its cells is dropped. -/
theorem findTimeCell_none {texts : List String}
    (h : ∀ c ∈ texts, findTimeMatch c = none) : ∀ i, findTimeCell i texts = none := by
  induction texts with
  | nil => intro i; simp [findTimeCell]
  | cons c rest ih =>
    intro i
    unfold findTimeCell
    rw [h c (by simp)]
    exact ih (fun x hx => h x (by simp [hx])) (i + 1)

/-- The time of a `lineMatch` capture has the time shape. -/
theorem lineMatch_token {cs : List Char} {tv body : String}
    (h : lineMatch cs = some (tv, body)) : timeToken tv = true := by
  unfold lineMatch at h
  cases hm : matchTimeAt false (cs.dropWhile Char.isWhitespace) with
  | none => rw [hm] at h; simp at h
  | some p =>
    rw [hm] at h
    obtain ⟨tok, rest1⟩ := p
    have htok := matchTimeAt_token hm
    simp only at h
    split at h
    · simp at h
    · split at h
      · simp at h
      · split at h
        · injection h with h1
          injection h1 with h2 h3
          subst h2
          exact htok
        · split at h
          · injection h with h1
            injection h1 with h2 h3
            subst h2
            exact htok
          · simp at h

/-- Every record built by `split_free_text` has a time of the `TIME_RE`
shape. -/
theorem split_free_text_token {line : String} {r : EventRec}
    (h : split_free_text line = some r) : timeToken r.time = true := by
  unfold split_free_text at h
  cases hm : lineMatch line.data with
  | none => rw [hm] at h; simp at h
  | some p =>
    rw [hm] at h
    obtain ⟨tv, rest⟩ := p
    have htok := lineMatch_token hm
    simp only at h
    split at h
    · simp only [Option.some.injEq] at h; subst h; exact htok
    · simp only [Option.some.injEq] at h; subst h; exact htok

/-- A string of the time shape is its own `TIME_RE.search` capture. -/
theorem findTimeMatch_of_token {s : String} (h : timeToken s = true) :
    findTimeMatch s = some s := by
  obtain ⟨data⟩ := s
  rcases data with _ | ⟨a, _ | ⟨b, _ | ⟨c, _ | ⟨d, _ | ⟨e, _ | ⟨f, rest⟩⟩⟩⟩⟩⟩
  · simp [timeToken] at h
  · simp [timeToken] at h
  · simp [timeToken] at h
  · simp [timeToken] at h
  · simp only [timeToken, Bool.and_eq_true] at h
    simp [findTimeMatch, timeSearchAux, matchTimeAt, matchTime1, boundaryOk, boundaryAfter,
      h.1.1.1, h.1.1.2, h.1.2, h.2]
  · simp only [timeToken, Bool.and_eq_true] at h
    simp [findTimeMatch, timeSearchAux, matchTimeAt, boundaryOk, boundaryAfter,
      h.1.1.1.1, h.1.1.1.2, h.1.1.2, h.1.2, h.2]
  · simp [timeToken] at h

/-- A string of the time shape is not empty. -/
theorem timeToken_ne_empty {t : String} (h : timeToken t = true) : (t == "") = false := by
  cases hbe : (t == "")
  · rfl
  · exfalso
    have := eq_of_beq hbe
    subst this
    simp [timeToken] at h

/-! ### Claims C1, C2, C3, C4 -/

/-- Claim C1 is false on the code: `extract_rows_from_table` does not
resolve columns from recognizable header names. On a table whose header
row is exactly the five canonical names, reading body rows at the
header-resolved indices (the strategy the claim describes, embodied by
`headerDrivenExtract`) disagrees with the actual extractor, which ignores
the header and re-parses the joined middle cells. -/
theorem C1_counterexample :
    extract_rows_from_table
        ⟨[["Ora", "Sport", "Competizione", "Evento", "Canali"]],
          some [["20:45", "Calcio", "Serie A", "Pisa-Lazio", "Sky"]], []⟩
      ≠ headerDrivenExtract
        ⟨[["Ora", "Sport", "Competizione", "Evento", "Canali"]],
          some [["20:45", "Calcio", "Serie A", "Pisa-Lazio", "Sky"]], []⟩ := by
  decide

/-- Claim C1 amended: the table extractor ignores header names entirely —
its output depends only on the `<tbody>` rows (any header content gives
the same result) — and on the five-column table above it returns the
record produced by joining the three middle cells and re-parsing them,
not the per-column header binding. -/
theorem C1_amended :
    (∀ (hdr hdr2 : List (List String)) (b : List (List String))
        (loose loose2 : List (List String)),
        extract_rows_from_table ⟨hdr, some b, loose⟩
          = extract_rows_from_table ⟨hdr2, some b, loose2⟩)
  ∧ extract_rows_from_table
        ⟨[["Ora", "Sport", "Competizione", "Evento", "Canali"]],
          some [["20:45", "Calcio", "Serie A", "Pisa-Lazio", "Sky"]], []⟩
      = [⟨"20:45", "Calcio Serie A Pisa-Lazio", "", "", "Sky"⟩] :=
  ⟨fun _ _ _ _ _ => rfl, by decide⟩

/-- Claim C2 is false on the code: on the free-text line of Scenario C
the channel scan does not return the claimed record, because the scan
from the end stops at the last broadcaster-keyword part, not the first. -/
theorem C2_counterexample :
    split_free_text "20:45 Calcio, Serie A: Pisa-Lazio Sky, Dazn"
      ≠ some ⟨"20:45", "Calcio", "Serie A", "Pisa-Lazio", "Sky, Dazn"⟩ := by
  decide

/-- Claim C2 amended: parsing the line of Scenario C yields
title `Pisa-Lazio Sky` and channels `Dazn` — the backwards scan stops at
the last comma-part containing a broadcaster keyword, so only the parts
from that last keyword part onward become channels. -/
theorem C2_amended :
    split_free_text "20:45 Calcio, Serie A: Pisa-Lazio Sky, Dazn"
      = some ⟨"20:45", "Calcio", "Serie A", "Pisa-Lazio Sky", "Dazn"⟩ := by
  decide

/-- Claim C3 is false on the code: on the Scenario B table the extractor
does not leave the middle cell undecomposed. -/
theorem C3_counterexample :
    extract_rows_from_table
        ⟨[["Ora", "Sport/Competizione", "Canali"]],
          some [["20:45", "Calcio, Serie A: Pisa-Lazio", "Sky, Dazn"]], []⟩
      ≠ [⟨"20:45", "Calcio, Serie A: Pisa-Lazio", "", "", "Sky, Dazn"⟩] := by
  decide

/-- Claim C3 amended: on the Scenario B table the extractor decomposes
the single middle cell at the first colon and the first comma, yielding
sport `Calcio`, competition `Serie A`, title `Pisa-Lazio` (there is no
undecomposed positional path). -/
theorem C3_amended :
    extract_rows_from_table
        ⟨[["Ora", "Sport/Competizione", "Canali"]],
          some [["20:45", "Calcio, Serie A: Pisa-Lazio", "Sky, Dazn"]], []⟩
      = [⟨"20:45", "Calcio", "Serie A", "Pisa-Lazio", "Sky, Dazn"⟩] := by
  decide

/-- Claim C4: the date-heading resolver is claimed to never raise, but on
the heading `31 febbraio 2025` the unguarded `datetime.date(2025, 2, 31)`
call raises `ValueError` (modelled by `.error ()`), so the code violates
the claimed contract. -/
theorem C4_failing_eval :
    parse_date_heading "31 febbraio 2025" ⟨2025, 10, 12⟩ = .error () := rfl

/-! ### Claim C9 -/

/-- Claim C9 is false as worded: the extractors construct records whose
hour is a single digit. The free-text parser accepts `9:05 ...` and
builds a record whose time fails the claimed two-digit zero-padded
pattern. -/
theorem C9_counterexample :
    (split_free_text "9:05 Tennis: Atp Roma Sky").map (fun r => strictHHMM2 r.time)
      = some false := by
  decide

/-- Claim C9 amended: every record ever constructed — by the table
extractor and by the free-text parser — has a time matching the
`TIME_RE` pattern of one-or-two-digit hour, colon, two-digit minute
(`timeToken`), and a table row none of whose cells contains that pattern
is discarded, never turned into a record. -/
theorem C9_amended :
    (∀ (t : HtmlTable), ∀ r ∈ extract_rows_from_table t, timeToken r.time = true)
  ∧ (∀ (line : String) (r : EventRec), split_free_text line = some r →
      timeToken r.time = true)
  ∧ (∀ texts : List String, (∀ c ∈ texts, findTimeMatch c = none) → rowToRec texts = none) := by
  refine ⟨?_, ?_, ?_⟩
  · intro t r hr
    obtain ⟨row, _, hsome⟩ := List.mem_filterMap.mp hr
    exact rowToRec_token hsome
  · intro line r h
    exact split_free_text_token h
  · intro texts hnone
    unfold rowToRec
    split
    · rfl
    · split
      · rfl
      · rw [findTimeCell_none hnone 0]

/-- Witness for the amended claim C9 at concrete inputs: the single-digit
record built from `9:05 Tennis: Atp Roma Sky` does satisfy the amended
pattern, a record extracted from a concrete table does too, and a row
with no time cell yields no record. -/
theorem C9_witness :
    timeToken (EventRec.time ⟨"9:05", "Tennis", "", "", "Atp Roma Sky"⟩) = true
  ∧ timeToken (EventRec.time ⟨"20:45", "Calcio", "Serie A", "Pisa-Lazio", "Sky, Dazn"⟩) = true
  ∧ rowToRec ["Nessun orario", "qui"] = none := by
  refine ⟨?_, ?_, ?_⟩
  · exact C9_amended.2.1 "9:05 Tennis: Atp Roma Sky"
      ⟨"9:05", "Tennis", "", "", "Atp Roma Sky"⟩ (by decide)
  · exact C9_amended.1
      ⟨[["Ora", "Sport/Competizione", "Canali"]],
        some [["20:45", "Calcio, Serie A: Pisa-Lazio", "Sky, Dazn"]], []⟩
      ⟨"20:45", "Calcio", "Serie A", "Pisa-Lazio", "Sky, Dazn"⟩ (by decide)
  · exact C9_amended.2.2 ["Nessun orario", "qui"] (by decide)

/-! ### Claim C5 -/

/-- A rendered row with empty sport, competition and title cells
re-extracts to the original record. -/
theorem rowToRec_simple {t ch : String} (htok : timeToken t = true)
    (hctr : pyTrim ch = ch) :
    rowToRec [t, "", "", "", ch] = some ⟨t, "", "", "", ch⟩ := by
  have hfm : findTimeMatch t = some t := findTimeMatch_of_token htok
  have hne : (t == "") = false := timeToken_ne_empty htok
  have hcell : findTimeCell 0 [t, "", "", "", ch] = some (0, t) := by
    unfold findTimeCell
    rw [hfm]
  have estep : chanScan [t, "", "", "", ch] 0 4
      = if looksLikeChannels ch then some 4 else chanScan [t, "", "", "", ch] 0 3 := rfl
  have ebase : chanScan [t, "", "", "", ch] 0 3 = none := rfl
  have hmid : (([t, "", "", "", ch].enum).filter
      (fun p => p.1 != 0 && p.1 != 4 && p.2 != "")).map Prod.snd = ([] : List String) := rfl
  by_cases hch : looksLikeChannels ch = true
  · have hscan : chanScan [t, "", "", "", ch] 0 4 = some 4 := by
      rw [estep, if_pos hch]
    unfold rowToRec
    rw [if_neg (by simp)]
    rw [if_neg (by simp [hne])]
    rw [hcell]
    simp +decide [hscan, hctr, hmid]
  · have hscan : chanScan [t, "", "", "", ch] 0 4 = none := by
      rw [estep, if_neg hch, ebase]
    unfold rowToRec
    rw [if_neg (by simp)]
    rw [if_neg (by simp [hne])]
    rw [hcell]
    simp +decide [hscan, hctr, hmid]

/-- Claim C5 is false on the code: re-extracting the rendered table does
not reproduce the five-tuple set of every day section. For the record
`(20:45, Calcio, Serie A, Pisa-Lazio, Sky)` the re-extraction joins the
three rendered middle cells into one text and re-parses it, losing the
original split, so the original tuple is absent from the re-extracted
set. -/
theorem C5_counterexample :
    (⟨"20:45", "Calcio", "Serie A", "Pisa-Lazio", "Sky"⟩ : EventRec)
        ∈ ([⟨"20:45", "Calcio", "Serie A", "Pisa-Lazio", "Sky"⟩] : List EventRec)
  ∧ (⟨"20:45", "Calcio", "Serie A", "Pisa-Lazio", "Sky"⟩ : EventRec)
        ∉ renderThenExtract [⟨"20:45", "Calcio", "Serie A", "Pisa-Lazio", "Sky"⟩] := by
  decide

/-- Claim C5 amended: the render/re-extract round trip is the identity
only on day sections whose records carry everything in the time and
channels fields — empty sport, competition and title, a strict `HH:MM`
time with no surrounding whitespace, and a channels string stable under
the comma normalization of `linkify_channels`; in general the middle
columns are re-derived by re-parsing the joined cells and the tuple set
is not preserved. -/
theorem C5_amended (rows : List EventRec)
    (h : ∀ r ∈ rows, r.sport = "" ∧ r.competition = "" ∧ r.title = "" ∧
        timeToken r.time = true ∧ pyTrim r.time = r.time ∧
        pyTrim r.channels = r.channels ∧ linkChannelsTextNoMap r.channels = r.channels) :
    renderThenExtract rows = rows := by
  induction rows with
  | nil => rfl
  | cons r rs ih =>
    obtain ⟨tv, sp, co, ti, chv⟩ := r
    obtain ⟨hs, hc, ht, htok, htr, hctr, hln⟩ := h _ (List.mem_cons_self _ rs)
    simp only at hs hc ht htok htr hctr hln
    subst hs hc ht
    have hrs := ih (fun x hx => h x (List.mem_cons_of_mem _ hx))
    have e2 : renderedBodyTexts (⟨tv, "", "", "", chv⟩ :: rs)
        = [tv, "", "", "", chv] :: renderedBodyTexts rs := by
      unfold renderedBodyTexts
      rw [List.filter_cons]
      simp only [htr, htok, if_true, List.map_cons]
      rw [← renderedBodyTexts]
      simp only [htr, hln, hctr]
      rfl
    have e1 : renderThenExtract (⟨tv, "", "", "", chv⟩ :: rs)
        = (renderedBodyTexts (⟨tv, "", "", "", chv⟩ :: rs)).filterMap rowToRec := rfl
    rw [e1, e2, List.filterMap_cons, rowToRec_simple htok hctr]
    rw [show (renderedBodyTexts rs).filterMap rowToRec = renderThenExtract rs from rfl, hrs]

/-- Witness for the amended claim C5: a concrete one-record section in
the stable shape round-trips unchanged. -/
theorem C5_witness :
    renderThenExtract [⟨"20:45", "", "", "", "Sky, Dazn"⟩]
      = [⟨"20:45", "", "", "", "Sky, Dazn"⟩] :=
  C5_amended _ (by decide)

/-! ### Claim C10 -/

/-- Splitting on a separator that does not occur returns the whole list. -/
theorem splitAllAux_no_sep {sep : Char} :
    ∀ {cs : List Char}, sep ∉ cs → splitAllAux sep cs = [cs] := by
  intro cs h
  induction cs with
  | nil => rfl
  | cons c rest ih =>
    unfold splitAllAux
    rw [ih (fun hm => h (List.mem_cons_of_mem c hm))]
    show (if c = sep then [] :: rest :: ([] : List (List Char)) else (c :: rest) :: []) = [c :: rest]
    rw [if_neg (fun e => h (by rw [← e]; exact List.mem_cons_self c rest))]

/-- String version of `splitAllAux_no_sep`. -/
theorem pySplitAll_no_sep {sep : Char} {s : String} (h : sep ∉ s.data) :
    pySplitAll sep s = [s] := by
  obtain ⟨data⟩ := s
  unfold pySplitAll
  rw [splitAllAux_no_sep h]
  rfl

/-- Claim C10: when the case-insensitive exact lookup fails, the channel
lookup succeeds in both substring directions — it returns a URL when the
lowered display name contains some map key and when it is itself
contained in some map key — and when neither direction matches any entry
it returns none and `linkify_channels` renders the name as plain escaped
text without a hyperlink. -/
theorem C10_lookup (name : String) (cmap : List (String × String))
    (hne : pyLower (pyTrim name) ≠ "")
    (hexact : cmap.find? (fun p => p.1 == pyLower (pyTrim name)) = none) :
    ((∃ p ∈ cmap, containsSub (pyLower (pyTrim name)) p.1 = true) →
        (lookupChannelUrl name cmap).isSome = true)
  ∧ ((∃ p ∈ cmap, containsSub p.1 (pyLower (pyTrim name)) = true) →
        (lookupChannelUrl name cmap).isSome = true)
  ∧ ((∀ p ∈ cmap, containsSub p.1 (pyLower (pyTrim name)) = false ∧
        containsSub (pyLower (pyTrim name)) p.1 = false) →
      lookupChannelUrl name cmap = none
      ∧ (pyTrim name = name → ',' ∉ name.data →
          linkify_channels name cmap = esc name)) := by
  have hkey : lookupChannelUrl name cmap
      = (cmap.find? (fun p =>
          containsSub p.1 (pyLower (pyTrim name))
            || containsSub (pyLower (pyTrim name)) p.1)).map Prod.snd := by
    unfold lookupChannelUrl
    rw [if_neg hne, hexact]
  refine ⟨?_, ?_, ?_⟩
  · rintro ⟨p, hp, hc⟩
    rw [hkey]
    have hfs : (cmap.find? (fun p =>
        containsSub p.1 (pyLower (pyTrim name))
          || containsSub (pyLower (pyTrim name)) p.1)).isSome :=
      List.find?_isSome.mpr ⟨p, hp, by rw [hc]; simp⟩
    obtain ⟨q, hq⟩ := Option.isSome_iff_exists.mp hfs
    rw [hq]
    rfl
  · rintro ⟨p, hp, hc⟩
    rw [hkey]
    have hfs : (cmap.find? (fun p =>
        containsSub p.1 (pyLower (pyTrim name))
          || containsSub (pyLower (pyTrim name)) p.1)).isSome :=
      List.find?_isSome.mpr ⟨p, hp, by rw [hc]; simp⟩
    obtain ⟨q, hq⟩ := Option.isSome_iff_exists.mp hfs
    rw [hq]
    rfl
  · intro hall
    have hnone : lookupChannelUrl name cmap = none := by
      rw [hkey]
      rw [List.find?_eq_none.mpr (fun p hp => by simp [(hall p hp).1, (hall p hp).2])]
      rfl
    refine ⟨hnone, fun htrn hcomma => ?_⟩
    have hnn : name ≠ "" := by
      intro e
      apply hne
      rw [← htrn, e]
      rfl
    unfold linkify_channels
    rw [if_neg hnn]
    rw [pySplitAll_no_sep hcomma]
    simp only [List.map_cons, List.map_nil, htrn, List.filter]
    have hbne : (name != "") = true := by
      simp [bne, hnn]
    rw [hbne]
    simp only [List.map_cons, List.map_nil, hnone]
    rfl

/-- Witness for claim C10 at concrete inputs: with map key `sky`, the
display name `Sky Sport 1` succeeds through the substring fallback, and
`Canale 5` matches nothing and is rendered as plain escaped text. -/
theorem C10_witness :
    (lookupChannelUrl "Sky Sport 1" [("sky", "https://sky.example")]).isSome = true
  ∧ lookupChannelUrl "Canale 5" [("sky", "https://sky.example")] = none
  ∧ linkify_channels "Canale 5" [("sky", "https://sky.example")] = esc "Canale 5" := by
  refine ⟨?_, ?_, ?_⟩
  · exact (C10_lookup "Sky Sport 1" [("sky", "https://sky.example")]
      (by decide) (by decide)).1 ⟨("sky", "https://sky.example"), by decide, by decide⟩
  · exact ((C10_lookup "Canale 5" [("sky", "https://sky.example")]
      (by decide) (by decide)).2.2 (by decide)).1
  · exact ((C10_lookup "Canale 5" [("sky", "https://sky.example")]
      (by decide) (by decide)).2.2 (by decide)).2 (by decide) (by decide)

/-! ### Claim C6 -/

/-- The dedupe loop only drops elements, keeping the original order. -/
theorem dedupeAux_sublist (seen : List (String × String × String)) (rows : List EventRec) :
    (dedupeAux seen rows).Sublist rows := by
  induction rows generalizing seen with
  | nil => simp [dedupeAux]
  | cons r rs ih =>
    unfold dedupeAux
    split
    · exact (ih seen).cons r
    · exact (ih (recKey r :: seen)).cons₂ r

/-- The dedupe loop emits pairwise distinct keys, none of them already
seen. -/
theorem dedupeAux_nodup (seen : List (String × String × String)) (rows : List EventRec) :
    ((dedupeAux seen rows).map recKey).Nodup
      ∧ ∀ x ∈ dedupeAux seen rows, recKey x ∉ seen := by
  induction rows generalizing seen with
  | nil => simp [dedupeAux]
  | cons r rs ih =>
    unfold dedupeAux
    split
    · exact ih seen
    · rename_i hnot
      obtain ⟨ihn, ihs⟩ := ih (recKey r :: seen)
      refine ⟨?_, ?_⟩
      · rw [List.map_cons, List.nodup_cons]
        refine ⟨?_, ihn⟩
        intro hmem
        obtain ⟨x, hx, hk⟩ := List.mem_map.mp hmem
        exact ihs x hx (by rw [hk]; exact List.mem_cons_self _ _)
      · intro x hx
        rcases List.mem_cons.mp hx with he | hx2
        · rw [he]; exact hnot
        · exact fun hs => ihs x hx2 (List.mem_cons_of_mem _ hs)

/-- The representative of any key not yet seen is the first occurrence in
the input. -/
theorem dedupeAux_find? (k : String × String × String) :
    ∀ (seen : List (String × String × String)) (rows : List EventRec), k ∉ seen →
      (dedupeAux seen rows).find? (fun x => decide (recKey x = k))
        = rows.find? (fun x => decide (recKey x = k)) := by
  intro seen rows
  induction rows generalizing seen with
  | nil => intro _; rfl
  | cons r rs ih =>
    intro hk
    unfold dedupeAux
    split
    · rename_i hin
      have hne : ¬ (recKey r = k) := fun e => hk (e ▸ hin)
      rw [List.find?_cons_of_neg _ (by simpa using hne)]
      exact ih seen hk
    · rename_i hnin
      by_cases he : recKey r = k
      · rw [List.find?_cons_of_pos _ (by simpa using he),
          List.find?_cons_of_pos _ (by simpa using he)]
      · rw [List.find?_cons_of_neg _ (by simpa using he),
          List.find?_cons_of_neg _ (by simpa using he)]
        refine ih (recKey r :: seen) ?_
        intro hmem
        rcases List.mem_cons.mp hmem with e | hs
        · exact he e.symm
        · exact hk hs

/-- Claim C6: in the dedupe step, any two records sharing the composite
key `(time, title, channels)` collapse to a single record — the
first-seen occurrence — regardless of sport or competition, and the
original relative order among survivors is preserved (the output is a
sublist of the input with pairwise distinct keys, and for every input
record the output representative of its key is the first occurrence in
the input). -/
theorem C6_dedupe (rows : List EventRec) :
    (dedupeRows rows).Sublist rows
  ∧ ((dedupeRows rows).map recKey).Nodup
  ∧ ∀ r ∈ rows,
      (dedupeRows rows).find? (fun x => decide (recKey x = recKey r))
        = rows.find? (fun x => decide (recKey x = recKey r)) :=
  ⟨dedupeAux_sublist [] rows, (dedupeAux_nodup [] rows).1,
    fun r _ => dedupeAux_find? (recKey r) [] rows (by simp)⟩

/-- Witness for claim C6 at a concrete input: two records with the same
key but different sport and competition collapse to the first. -/
theorem C6_witness :
    (dedupeRows [⟨"20:45", "Calcio", "Serie A", "Pisa-Lazio", "Sky"⟩,
        ⟨"20:45", "Basket", "Eurolega", "Pisa-Lazio", "Sky"⟩]).Sublist
      [⟨"20:45", "Calcio", "Serie A", "Pisa-Lazio", "Sky"⟩,
        ⟨"20:45", "Basket", "Eurolega", "Pisa-Lazio", "Sky"⟩]
  ∧ (dedupeRows [⟨"20:45", "Calcio", "Serie A", "Pisa-Lazio", "Sky"⟩,
        ⟨"20:45", "Basket", "Eurolega", "Pisa-Lazio", "Sky"⟩]).find?
        (fun x => decide (recKey x
          = recKey ⟨"20:45", "Basket", "Eurolega", "Pisa-Lazio", "Sky"⟩))
      = [⟨"20:45", "Calcio", "Serie A", "Pisa-Lazio", "Sky"⟩,
          ⟨"20:45", "Basket", "Eurolega", "Pisa-Lazio", "Sky"⟩].find?
        (fun x => decide (recKey x
          = recKey ⟨"20:45", "Basket", "Eurolega", "Pisa-Lazio", "Sky"⟩)) :=
  ⟨(C6_dedupe _).1,
    (C6_dedupe _).2.2 ⟨"20:45", "Basket", "Eurolega", "Pisa-Lazio", "Sky"⟩ (by decide)⟩

/-! ### Claim C7 -/

/-- The time comparison of the sort key is transitive. -/
theorem timeLeB_trans (a b c : EventRec) (h1 : timeLeB a b) (h2 : timeLeB b c) :
    timeLeB a c := by
  simp only [timeLeB, decide_eq_true_eq] at *
  exact le_trans h1 h2

/-- The time comparison of the sort key is total. -/
theorem timeLeB_total (a b : EventRec) : timeLeB a b || timeLeB b a := by
  rcases le_total a.time b.time with h | h <;> simp [timeLeB, h]

/-- The date comparison is transitive. -/
theorem dateLeB_trans (a b c : Date) (h1 : dateLeB a b) (h2 : dateLeB b c) :
    dateLeB a c := by
  simp only [dateLeB, Bool.or_eq_true, Bool.and_eq_true, decide_eq_true_eq,
    beq_iff_eq] at *
  omega

/-- The date comparison is total. -/
theorem dateLeB_total (a b : Date) : dateLeB a b || dateLeB b a := by
  simp only [dateLeB, Bool.or_eq_true, Bool.and_eq_true, decide_eq_true_eq,
    beq_iff_eq]
  omega

/-- The date comparison is antisymmetric. -/
theorem dateLeB_antisymm {a b : Date} (h1 : dateLeB a b = true) (h2 : dateLeB b a = true) :
    a = b := by
  obtain ⟨y1, m1, d1⟩ := a
  obtain ⟨y2, m2, d2⟩ := b
  simp only [dateLeB, Bool.or_eq_true, Bool.and_eq_true, decide_eq_true_eq,
    beq_iff_eq] at h1 h2
  simp only [Date.mk.injEq]
  omega

/-- A non-strict comparison between distinct dates is strict. -/
theorem dateLtB_of {a b : Date} (hle : dateLeB a b = true) (hne : a ≠ b) :
    dateLtB a b = true := by
  unfold dateLtB
  rw [hle]
  cases hba : dateLeB b a
  · rfl
  · exact absurd (dateLeB_antisymm hle hba) hne

/-- The keys of the groups map after one insert-or-update step. -/
theorem keys_upsertWith (f : List EventRec → List EventRec → List EventRec)
    (g : List (Date × List EventRec)) (b : Date × List EventRec) :
    (upsertWith f g b).map Prod.fst
      = if b.1 ∈ g.map Prod.fst then g.map Prod.fst
        else g.map Prod.fst ++ [b.1] := by
  unfold upsertWith
  split
  · rw [List.map_map]
    apply List.map_congr_left
    intro p _
    dsimp only [Function.comp]
    split <;> rfl
  · rw [List.map_append]
    rfl

/-- Keys already present survive an insert-or-update step. -/
theorem keys_mem_upsert {f g b} {d : Date} (h : d ∈ g.map Prod.fst) :
    d ∈ (upsertWith f g b).map Prod.fst := by
  rw [keys_upsertWith]
  split
  · exact h
  · exact List.mem_append_left _ h

/-- The inserted key is present after an insert-or-update step. -/
theorem keys_new_upsert {f g b} : b.1 ∈ (upsertWith f g b).map Prod.fst := by
  rw [keys_upsertWith]
  split
  · assumption
  · exact List.mem_append_right _ (by simp)

/-- Keys after an insert-or-update step come from the map or the block. -/
theorem keys_sub_upsert {f g b} {d : Date} (h : d ∈ (upsertWith f g b).map Prod.fst) :
    d ∈ g.map Prod.fst ∨ d = b.1 := by
  rw [keys_upsertWith] at h
  split at h
  · exact .inl h
  · rcases List.mem_append.mp h with h2 | h2
    · exact .inl h2
    · exact .inr (by simpa using h2)

/-- An insert-or-update step keeps the keys pairwise distinct. -/
theorem keys_nodup_upsert {f g b} (h : (g.map Prod.fst).Nodup) :
    ((upsertWith f g b).map Prod.fst).Nodup := by
  rw [keys_upsertWith]
  split
  · exact h
  · rename_i hnm
    rw [List.nodup_append]
    refine ⟨h, by simp, ?_⟩
    intro a ha hb
    rw [List.mem_singleton] at hb
    exact hnm (hb ▸ ha)

/-- Keys present in the accumulator survive the whole fold. -/
theorem foldl_keys_mem (f : List EventRec → List EventRec → List EventRec) :
    ∀ (blocks : List (Date × List EventRec)) (g : List (Date × List EventRec)) {d : Date},
      d ∈ g.map Prod.fst → d ∈ ((blocks.foldl (upsertWith f) g).map Prod.fst) := by
  intro blocks
  induction blocks with
  | nil => intro g d h; exact h
  | cons b rest ih =>
    intro g d h
    exact ih (upsertWith f g b) (keys_mem_upsert h)

/-- Every block date appears among the fold's keys. -/
theorem foldl_keys_block (f : List EventRec → List EventRec → List EventRec) :
    ∀ (blocks : List (Date × List EventRec)) (g : List (Date × List EventRec))
      {b : Date × List EventRec}, b ∈ blocks →
      b.1 ∈ ((blocks.foldl (upsertWith f) g).map Prod.fst) := by
  intro blocks
  induction blocks with
  | nil => intro g b h; exact absurd h (by simp)
  | cons c rest ih =>
    intro g b h
    rcases List.mem_cons.mp h with he | hm
    · subst he
      exact foldl_keys_mem f rest _ keys_new_upsert
    · exact ih _ hm

/-- Every key of the fold comes from the accumulator or from a block. -/
theorem foldl_keys_sub (f : List EventRec → List EventRec → List EventRec) :
    ∀ (blocks : List (Date × List EventRec)) (g : List (Date × List EventRec)) {d : Date},
      d ∈ ((blocks.foldl (upsertWith f) g).map Prod.fst) →
      d ∈ g.map Prod.fst ∨ ∃ b ∈ blocks, b.1 = d := by
  intro blocks
  induction blocks with
  | nil => intro g d h; exact .inl h
  | cons c rest ih =>
    intro g d h
    rcases ih _ h with h2 | h2
    · rcases keys_sub_upsert h2 with h3 | h3
      · exact .inl h3
      · exact .inr ⟨c, by simp, h3.symm⟩
    · obtain ⟨b, hb, he⟩ := h2
      exact .inr ⟨b, by simp [hb], he⟩

/-- The fold keeps the keys pairwise distinct. -/
theorem foldl_keys_nodup (f : List EventRec → List EventRec → List EventRec) :
    ∀ (blocks : List (Date × List EventRec)) (g : List (Date × List EventRec)),
      (g.map Prod.fst).Nodup → ((blocks.foldl (upsertWith f) g).map Prod.fst).Nodup := by
  intro blocks
  induction blocks with
  | nil => intro g h; exact h
  | cons c rest ih =>
    intro g h
    exact ih _ (keys_nodup_upsert h)

/-- Ordered insertion permutes to consing. -/
theorem perm_orderedInsert (le : α → α → Bool) (a : α) :
    ∀ l : List α, List.Perm (orderedInsert le a l) (a :: l) := by
  intro l
  induction l with
  | nil => exact List.Perm.refl _
  | cons b bs ih =>
    unfold orderedInsert
    split
    · exact List.Perm.refl _
    · exact (ih.cons b).trans (List.Perm.swap a b bs)

/-- The stable sort permutes its input. -/
theorem perm_insSort (le : α → α → Bool) :
    ∀ l : List α, List.Perm (insSort le l) l := by
  intro l
  induction l with
  | nil => exact List.Perm.refl _
  | cons a as ih =>
    unfold insSort
    exact ((perm_orderedInsert le a (insSort le as)).trans (ih.cons a))

/-- Ordered insertion preserves sortedness. -/
theorem sorted_orderedInsert {le : α → α → Bool}
    (htrans : ∀ a b c, le a b = true → le b c = true → le a c = true)
    (htotal : ∀ a b, le a b || le b a) (a : α) :
    ∀ l : List α, l.Pairwise (fun x y => le x y = true) →
      (orderedInsert le a l).Pairwise (fun x y => le x y = true) := by
  intro l
  induction l with
  | nil =>
    intro _
    exact List.pairwise_singleton _ a
  | cons b bs ih =>
    intro hp
    obtain ⟨hb, hbs⟩ := List.pairwise_cons.mp hp
    unfold orderedInsert
    split
    · rename_i hab
      refine List.pairwise_cons.mpr ⟨?_, hp⟩
      intro x hx
      rcases List.mem_cons.mp hx with he | hm
      · subst he; exact hab
      · exact htrans a b x hab (hb x hm)
    · rename_i hab
      have hba : le b a = true := by
        rcases Bool.or_eq_true_iff.mp (htotal a b) with h1 | h1
        · exact absurd h1 hab
        · exact h1
      refine List.pairwise_cons.mpr ⟨?_, ih hbs⟩
      intro x hx
      have hx2 := (perm_orderedInsert le a bs).mem_iff.mp hx
      rcases List.mem_cons.mp hx2 with he | hm
      · subst he; exact hba
      · exact hb x hm

/-- The stable sort produces a non-decreasing list. -/
theorem sorted_insSort {le : α → α → Bool}
    (htrans : ∀ a b c, le a b = true → le b c = true → le a c = true)
    (htotal : ∀ a b, le a b || le b a) :
    ∀ l : List α, (insSort le l).Pairwise (fun x y => le x y = true) := by
  intro l
  induction l with
  | nil => exact List.Pairwise.nil
  | cons a as ih =>
    unfold insSort
    exact sorted_orderedInsert htrans htotal a _ ih

/-- Claim C7: after aggregation, the records within every day section are
non-decreasing by the time field compared as a string, and the sequence
of day sections is strictly ascending by date — one entry per distinct
date, the dates being exactly those of the input blocks. -/
theorem C7_aggregate (blocks : List (Date × List EventRec)) :
    (∀ p ∈ aggregateBlocks blocks, p.2.Pairwise (fun a b => timeLeB a b = true))
  ∧ ((aggregateBlocks blocks).map Prod.fst).Pairwise (fun a b => dateLtB a b = true)
  ∧ (∀ b ∈ blocks, b.1 ∈ (aggregateBlocks blocks).map Prod.fst)
  ∧ (∀ d ∈ (aggregateBlocks blocks).map Prod.fst, ∃ b ∈ blocks, b.1 = d) := by
  have haddeq : blocks.foldl addBlock ([] : List (Date × List EventRec))
      = blocks.foldl (upsertWith (fun old new => dedupeRows (old ++ new))) [] := rfl
  have hGnodup : ((blocks.foldl addBlock ([] : List (Date × List EventRec))).map
      Prod.fst).Nodup := by
    rw [haddeq]
    exact foldl_keys_nodup _ blocks [] (by simp)
  have hperm : List.Perm (sortByDate (blocks.foldl addBlock []))
      (blocks.foldl addBlock ([] : List (Date × List EventRec))) :=
    perm_insSort _ _
  have hkeys : (aggregateBlocks blocks).map Prod.fst
      = (sortByDate (blocks.foldl addBlock [])).map Prod.fst := by
    unfold aggregateBlocks
    rw [List.map_map]
    exact List.map_congr_left (fun p _ => rfl)
  have hkeysperm : List.Perm ((sortByDate (blocks.foldl addBlock [])).map Prod.fst)
      ((blocks.foldl addBlock ([] : List (Date × List EventRec))).map Prod.fst) :=
    hperm.map _
  refine ⟨?_, ?_, ?_, ?_⟩
  · intro p hp
    unfold aggregateBlocks at hp
    obtain ⟨q, _, he⟩ := List.mem_map.mp hp
    rw [← he]
    exact sorted_insSort timeLeB_trans timeLeB_total q.2
  · rw [hkeys]
    have hsorted : (sortByDate (blocks.foldl addBlock [])).Pairwise
        (fun p q => dateLeB p.1 q.1 = true) :=
      sorted_insSort (fun a b c => dateLeB_trans a.1 b.1 c.1)
        (fun a b => dateLeB_total a.1 b.1) _
    have h1 : ((sortByDate (blocks.foldl addBlock [])).map Prod.fst).Pairwise
        (fun a b => dateLeB a b = true) :=
      List.pairwise_map.mpr hsorted
    have h2 : ((sortByDate (blocks.foldl addBlock [])).map Prod.fst).Nodup :=
      (hkeysperm.nodup_iff).mpr hGnodup
    exact List.Pairwise.imp (fun h => dateLtB_of h.1 h.2) (h1.and h2)
  · intro b hb
    rw [hkeys]
    refine (hkeysperm.mem_iff).mpr ?_
    rw [haddeq]
    exact foldl_keys_block _ blocks [] hb
  · intro d hd
    rw [hkeys] at hd
    have h2 := (hkeysperm.mem_iff).mp hd
    rw [haddeq] at h2
    rcases foldl_keys_sub _ blocks [] h2 with h3 | h3
    · exact absurd h3 (by simp)
    · exact h3

/-- Witness for claim C7 at a concrete input: two unsorted blocks with
out-of-order dates and times aggregate to sorted sections, and both dates
appear among the output keys. -/
theorem C7_witness :
    List.Pairwise (fun a b => timeLeB a b = true)
      ((⟨2025, 10, 12⟩ : Date), insSort timeLeB
        (dedupeRows ([] ++ [(⟨"10:00", "q", "w", "e", "r"⟩ : EventRec)]))).2
  ∧ ((⟨2025, 10, 12⟩ : Date), insSort timeLeB
        (dedupeRows ([] ++ [(⟨"10:00", "q", "w", "e", "r"⟩ : EventRec)]))).2
      = [⟨"10:00", "q", "w", "e", "r"⟩]
  ∧ (⟨2025, 10, 13⟩ : Date) ∈ (aggregateBlocks
      [(⟨2025, 10, 13⟩, [⟨"21:00", "a", "b", "t", "c"⟩, ⟨"20:00", "x", "y", "t2", "c2"⟩]),
       (⟨2025, 10, 12⟩, [⟨"10:00", "q", "w", "e", "r"⟩])]).map Prod.fst := by
  refine ⟨?_, by decide, ?_⟩
  · exact (C7_aggregate
      [(⟨2025, 10, 13⟩, [⟨"21:00", "a", "b", "t", "c"⟩, ⟨"20:00", "x", "y", "t2", "c2"⟩]),
       (⟨2025, 10, 12⟩, [⟨"10:00", "q", "w", "e", "r"⟩])]).1
      ((⟨2025, 10, 12⟩ : Date), insSort timeLeB
        (dedupeRows ([] ++ [(⟨"10:00", "q", "w", "e", "r"⟩ : EventRec)]))) (by decide)
  · exact (C7_aggregate
      [(⟨2025, 10, 13⟩, [⟨"21:00", "a", "b", "t", "c"⟩, ⟨"20:00", "x", "y", "t2", "c2"⟩]),
       (⟨2025, 10, 12⟩, [⟨"10:00", "q", "w", "e", "r"⟩])]).2.2.1
      (⟨2025, 10, 13⟩, [⟨"21:00", "a", "b", "t", "c"⟩, ⟨"20:00", "x", "y", "t2", "c2"⟩])
      (by decide)

/-! ### Claim C8 -/

/-- A date membership extractor for association lists. -/
theorem exists_of_mem_keys {gs : List (Date × List EventRec)} {d : Date}
    (h : d ∈ gs.map Prod.fst) : ∃ rs, (d, rs) ∈ gs := by
  obtain ⟨p, hp, he⟩ := List.mem_map.mp h
  exact ⟨p.2, by rw [← he]; exact hp⟩

/-- Every recognized heading contributes its date to the section list. -/
theorem sectionsE_mem {today : Date} :
    ∀ {doc : List DocItem} {secs : List (Date × List (List HtmlTable × List String))}
      {h : String} {d : Date},
      sectionsE today doc = .ok secs →
      DocItem.heading h ∈ doc →
      parse_date_heading h today = .ok (some d) →
      d ∈ secs.map Prod.fst := by
  intro doc
  induction doc with
  | nil =>
    intro secs h d hs hm
    simp at hm
  | cons it rest ih =>
    intro secs h d hs hm hp
    cases it with
    | block ts ls =>
      rcases List.mem_cons.mp hm with he | hm2
      · exact absurd he (by simp)
      · exact ih (by simpa [sectionsE] using hs) hm2 hp
    | heading h2 =>
      rw [sectionsE] at hs
      rcases List.mem_cons.mp hm with he | hm2
      · have hh : h = h2 := by
          injection he
        subst hh
        rw [hp] at hs
        cases hrest : sectionsE today rest with
        | error e => rw [hrest] at hs; simp [Except.map] at hs
        | ok tail =>
          rw [hrest] at hs
          simp only [Except.map, Except.ok.injEq] at hs
          rw [← hs]
          simp
      · cases hph2 : parse_date_heading h2 today with
        | error e =>
          rw [hph2] at hs
          exact absurd hs (by simp)
        | ok od =>
          cases od with
          | none =>
            rw [hph2] at hs
            exact ih hs hm2 hp
          | some d2 =>
            rw [hph2] at hs
            cases hrest : sectionsE today rest with
            | error e => rw [hrest] at hs; simp [Except.map] at hs
            | ok tail =>
              rw [hrest] at hs
              simp only [Except.map, Except.ok.injEq] at hs
              rw [← hs]
              simp only [List.map_cons, List.mem_cons]
              exact .inr (ih hrest hm2 hp)

/-- Every block date appears among the keys of the mirror aggregation. -/
theorem mem_keys_aggregateBlocks (blocks : List (Date × List EventRec))
    {b : Date × List EventRec} (hb : b ∈ blocks) :
    b.1 ∈ (aggregateBlocks blocks).map Prod.fst := by
  have haddeq : blocks.foldl addBlock ([] : List (Date × List EventRec))
      = blocks.foldl (upsertWith (fun old new => dedupeRows (old ++ new))) [] := rfl
  have hkeys : (aggregateBlocks blocks).map Prod.fst
      = (sortByDate (blocks.foldl addBlock [])).map Prod.fst := by
    unfold aggregateBlocks
    rw [List.map_map]
    exact List.map_congr_left (fun p _ => rfl)
  rw [hkeys]
  unfold sortByDate
  refine (((perm_insSort _ _).map Prod.fst).mem_iff).mpr ?_
  rw [haddeq]
  exact foldl_keys_block _ blocks [] hb

/-- Every block date appears among the keys of the fallback aggregation. -/
theorem mem_keys_aggregateOverwrite (blocks : List (Date × List EventRec))
    {b : Date × List EventRec} (hb : b ∈ blocks) :
    b.1 ∈ (aggregateOverwrite blocks).map Prod.fst := by
  have hseteq : blocks.foldl setBlock ([] : List (Date × List EventRec))
      = blocks.foldl (upsertWith (fun _ new => insSort timeLeB (dedupeRows new))) [] := rfl
  unfold aggregateOverwrite sortByDate
  refine (((perm_insSort _ _).map Prod.fst).mem_iff).mpr ?_
  rw [hseteq]
  exact foldl_keys_block _ blocks [] hb

/-- Claim C8: for every input document whose processing completes, a
recognized date heading whose block yields zero qualifying records still
produces a day section entry — never omitted from the grouped output,
including when every recognized date yields zero records and the
full-page fallback replaces the mirror groups — and an empty record list
renders as a table with no body rows. -/
theorem C8_empty_day (doc : List DocItem) (today : Date) (h : String) (d : Date)
    (gs : List (Date × List EventRec))
    (hmem : DocItem.heading h ∈ doc)
    (hph : parse_date_heading h today = .ok (some d))
    (hrun : mainGroupedE doc today = .ok gs) :
    (∃ rs, (d, rs) ∈ gs) ∧ renderedBodyTexts [] = [] := by
  refine ⟨?_, rfl⟩
  unfold mainGroupedE at hrun
  cases hmg : mirrorGroupsE doc today with
  | error e => rw [hmg] at hrun; exact absurd hrun (by simp)
  | ok g =>
    rw [hmg] at hrun
    dsimp only at hrun
    unfold mirrorGroupsE at hmg
    cases hse : sectionsE today doc with
    | error e => rw [hse] at hmg; simp [Except.map] at hmg
    | ok secs =>
      rw [hse] at hmg
      simp only [Except.map, Except.ok.injEq] at hmg
      have hdmem : d ∈ secs.map Prod.fst := sectionsE_mem hse hmem hph
      obtain ⟨s, hs, hfst⟩ := List.mem_map.mp hdmem
      split at hrun
      · unfold fallbackGroupsE at hrun
        rw [hse] at hrun
        simp only [Except.map, Except.ok.injEq] at hrun
        have hsecs_ne : secs.isEmpty = false := by
          cases secs
          · simp at hdmem
          · rfl
        rw [hsecs_ne] at hrun
        simp only [Bool.false_eq_true, if_false] at hrun
        apply exists_of_mem_keys
        rw [← hrun]
        have hbmem : (s.1, fallbackSectionRows s.2)
            ∈ secs.map (fun s => (s.1, fallbackSectionRows s.2)) :=
          List.mem_map.mpr ⟨s, hs, rfl⟩
        have := mem_keys_aggregateOverwrite _ hbmem
        rw [← hfst]
        exact this
      · have hg : g = gs := by
          injection hrun
        apply exists_of_mem_keys
        rw [← hg, ← hmg]
        have hbmem : (s.1, mirrorSectionRows s.2)
            ∈ secs.map (fun s => (s.1, mirrorSectionRows s.2)) :=
          List.mem_map.mpr ⟨s, hs, rfl⟩
        have := mem_keys_aggregateBlocks _ hbmem
        rw [← hfst]
        exact this

/-- Witness for claim C8 at a concrete document: one recognized heading
followed by an empty block — every recognized date yields zero records,
the fallback replaces the mirror groups, and the date still appears with
an empty record list. -/
theorem C8_witness :
    (∃ rs, ((⟨2025, 1, 1⟩ : Date), rs)
        ∈ [((⟨2025, 1, 1⟩ : Date), ([] : List EventRec))])
  ∧ renderedBodyTexts [] = [] :=
  C8_empty_day [.heading "1 gennaio 2025", .block [] []] ⟨2025, 10, 12⟩
    "1 gennaio 2025" ⟨2025, 1, 1⟩ [(⟨2025, 1, 1⟩, [])]
    (List.mem_cons_self _ _) rfl rfl

end VirgilioRss
